import Mathlib

/-!
Verification of the LegalEyes browser extension core against its
natural-language specification.

The development shallowly embeds the algorithmic core of the extension:

* the AI response parser (popup script, function parseAIResponse),
* the markdown-to-markup converter (convertMarkdownToHtml),
* the markup-to-plain-text inverse (getPlainText),
* the severity sort applied before presentation,
* the terms-and-conditions DOM text extractor (content script,
  function extractTermsAndConditions),
* the API reply validation step of processWithAI.

Strings are modelled as lists of characters (the type Str below); all
JavaScript regular-expression operations used by the source are embedded
as explicit, executable scanners over character lists, reproducing the
exact matching semantics of the source patterns (case-insensitive
matching is modelled for ASCII patterns, which is faithful because a
non-ASCII character never case-insensitively matches an ASCII pattern
character under non-unicode JS regex canonicalization).  Every function
is total, which reflects that the embedded source paths perform no
throwing string operations.  Recursion that is not structural uses an
explicit fuel argument so that all definitions reduce inside the kernel.
-/

set_option maxRecDepth 40000

namespace LegalEyes

/-- Characters of a JavaScript string, in order. -/
abbrev Str := List Char

/-- Whitespace test mirroring the JS regex class backslash-s
(tab, lf, vt, ff, cr, space, nbsp, ogham space, the U+2000 block,
line/paragraph separators, narrow nbsp, math space, ideographic space,
BOM). -/
def isWs (c : Char) : Bool :=
  let n := c.toNat
  n == 9 || n == 10 || n == 11 || n == 12 || n == 13 || n == 32 ||
  n == 160 || n == 5760 || (8192 ≤ n && n ≤ 8202) || n == 8232 ||
  n == 8233 || n == 8239 || n == 8287 || n == 12288 || n == 65279

/-- Line terminators for the JS regex dot, caret (multiline) and
dollar (multiline): lf, cr, line separator, paragraph separator. -/
def isLineTerm (c : Char) : Bool :=
  let n := c.toNat
  n == 10 || n == 13 || n == 8232 || n == 8233

/-- ASCII lower-casing of one character, as JS toLowerCase acts on the
ASCII range (the only range that can occur in the captures the source
lower-cases). -/
def lowerChar (c : Char) : Char :=
  if 65 ≤ c.toNat ∧ c.toNat ≤ 90 then Char.ofNat (c.toNat + 32) else c

/-- Lower-case a whole string. -/
def toLowerStr (s : Str) : Str := s.map lowerChar

/-- Case-insensitive character comparison (ASCII canonicalization). -/
def charEqCI (a b : Char) : Bool := decide (lowerChar a = lowerChar b)

/-- Does the pattern match case-insensitively as a prefix of the text? -/
def matchesCI : Str → Str → Bool
  | [], _ => true
  | _ :: _, [] => false
  | p :: ps, c :: cs => charEqCI p c && matchesCI ps cs

/-- Does the pattern match case-sensitively as a prefix of the text? -/
def matchesLit : Str → Str → Bool
  | [], _ => true
  | _ :: _, [] => false
  | p :: ps, c :: cs => decide (p = c) && matchesLit ps cs

/-- Index of the first case-insensitive occurrence of the pattern. -/
def findCI (pat : Str) : Str → Option Nat
  | [] => if matchesCI pat [] then some 0 else none
  | c :: rest =>
    if matchesCI pat (c :: rest) then some 0 else (findCI pat rest).map (· + 1)

/-- Index of the first case-sensitive occurrence of the pattern. -/
def findLit (pat : Str) : Str → Option Nat
  | [] => if matchesLit pat [] then some 0 else none
  | c :: rest =>
    if matchesLit pat (c :: rest) then some 0 else (findLit pat rest).map (· + 1)

/-- JS String.prototype.includes. -/
def containsSub (hay needle : Str) : Bool := (findLit needle hay).isSome

/-- Length of the maximal whitespace prefix (greedy backslash-s star). -/
def wsRun : Str → Nat
  | [] => 0
  | c :: rest => if isWs c then wsRun rest + 1 else 0

/-- Length of the maximal prefix free of line terminators (greedy dot
star without the s flag). -/
def lineRun : Str → Nat
  | [] => 0
  | c :: rest => if isLineTerm c then 0 else lineRun rest + 1

/-- JS String.prototype.trim on both ends. -/
def trimStr (s : Str) : Str :=
  ((s.dropWhile isWs).reverse.dropWhile isWs).reverse

/-- JS String.prototype.split with separator newline. -/
def splitLines : Str → List Str
  | [] => [[]]
  | c :: rest =>
    if c = '\n' then [] :: splitLines rest
    else
      match splitLines rest with
      | l :: ls => (c :: l) :: ls
      | [] => [[c]]

/-- Array.prototype.join with an explicit separator string. -/
def joinSep (sep : Str) : List Str → Str
  | [] => []
  | [x] => x
  | x :: xs => x ++ sep ++ joinSep sep xs

/-! ### The markdown renderer (convertMarkdownToHtml) -/

/-- The backtick character, the inline-code delimiter. -/
def tick : Char := Char.ofNat 96

/-- Index of the first position where the delimiter character occurs
twice in a row, with no line terminator before it — the closing search
performed by the lazy group in the source patterns for bold text. -/
def closingPair (p : Char) : Str → Option Nat
  | [] => none
  | c :: rest =>
    if c = p ∧ rest.head? = some p then some 0
    else if isLineTerm c then none
    else (closingPair p rest).map (· + 1)

/-- Index of the first occurrence of a single character. -/
def firstIdx (t : Char) : Str → Option Nat
  | [] => none
  | c :: rest => if c = t then some 0 else (firstIdx t rest).map (· + 1)

/-- The negative lookahead of the italic patterns: the next character
(if any) is neither an asterisk nor an underscore. -/
def lookOk : Str → Bool
  | [] => true
  | c :: _ => !(c = '*' ∨ c = '_' : Bool)

/-- Closing search for an italic delimiter: the first later occurrence
of the delimiter, requiring at least one interior character and the
lookahead to hold after it. -/
def italClose (trig : Char) (rest : Str) : Option Nat :=
  match firstIdx trig rest with
  | some j => if 1 ≤ j ∧ lookOk (rest.drop (j + 1)) then some j else none
  | none => none

/-- The negative lookbehind of the italic patterns, tracked as the
previously scanned character. -/
def prevOkB : Option Char → Bool
  | none => true
  | some p => !(p = '*' ∨ p = '_' : Bool)

/-- Global replacement of double-star bold spans with strong tags. -/
def replaceBoldStarF : Nat → Str → Str
  | 0, s => s
  | _ + 1, [] => []
  | f + 1, c :: rest =>
    if c = '*' ∧ rest.head? = some '*' then
      match closingPair '*' (rest.drop 1) with
      | some i =>
        "<strong>".data ++ (rest.drop 1).take i ++ "</strong>".data ++
          replaceBoldStarF f ((rest.drop 1).drop (i + 2))
      | none => c :: replaceBoldStarF f rest
    else c :: replaceBoldStarF f rest

/-- Global replacement of double-underscore bold spans with strong tags. -/
def replaceBoldUnderF : Nat → Str → Str
  | 0, s => s
  | _ + 1, [] => []
  | f + 1, c :: rest =>
    if c = '_' ∧ rest.head? = some '_' then
      match closingPair '_' (rest.drop 1) with
      | some i =>
        "<strong>".data ++ (rest.drop 1).take i ++ "</strong>".data ++
          replaceBoldUnderF f ((rest.drop 1).drop (i + 2))
      | none => c :: replaceBoldUnderF f rest
    else c :: replaceBoldUnderF f rest

/-- Global replacement of single-delimiter italic spans (guarded by the
lookbehind and lookahead of the source pattern) with em tags. -/
def replaceItalF (trig : Char) : Nat → Option Char → Str → Str
  | 0, _, s => s
  | _ + 1, _, [] => []
  | f + 1, prev, c :: rest =>
    if c = trig ∧ prevOkB prev then
      match italClose trig rest with
      | some j =>
        "<em>".data ++ rest.take j ++ "</em>".data ++
          replaceItalF trig f (some trig) (rest.drop (j + 1))
      | none => c :: replaceItalF trig f (some c) rest
    else c :: replaceItalF trig f (some c) rest

/-- Global replacement of backtick-delimited inline code with code tags. -/
def replaceCodeF : Nat → Str → Str
  | 0, s => s
  | _ + 1, [] => []
  | f + 1, c :: rest =>
    if c = tick then
      match firstIdx tick rest with
      | some j =>
        if 1 ≤ j then
          "<code>".data ++ rest.take j ++ "</code>".data ++
            replaceCodeF f (rest.drop (j + 1))
        else c :: replaceCodeF f rest
      | none => c :: replaceCodeF f rest
    else c :: replaceCodeF f rest

/-- Removal of a leading list marker, star-space or dash-space, from an
already trimmed line (the startsWith test of the source). -/
def stripListMarker (l : Str) : Str :=
  if matchesLit "* ".data l = true ∨ matchesLit "- ".data l = true then l.drop 2
  else l

/-- Per-line processing of convertMarkdownToHtml: trim, strip a list
marker, then the five sequential markdown replacements. -/
def convertLine (line : Str) : Str :=
  let l0 := stripListMarker (trimStr line)
  let l1 := replaceBoldStarF (l0.length + 1) l0
  let l2 := replaceBoldUnderF (l1.length + 1) l1
  let l3 := replaceItalF '*' (l2.length + 1) none l2
  let l4 := replaceItalF '_' (l3.length + 1) none l3
  replaceCodeF (l4.length + 1) l4

/-- The line-break tag emitted by the converter. -/
def brTag : Str := "<br>".data

/-- The markdown-to-markup converter of the popup script: split into
lines, process each, drop empty results, join with the line-break tag. -/
def convertMarkdownToHtml (text : Str) : Str :=
  if text = [] then []
  else joinSep brTag (((splitLines text).map convertLine).filter (· ≠ []))

/-! ### The markup-to-plain-text inverse (getPlainText)

The source realizes this with a detached DOM node: it assigns the markup
to innerHTML, replaces br elements with newline characters, reads
textContent, collapses runs of three or more newlines to two and trims.
For the restricted markup vocabulary produced by convertMarkdownToHtml
(well-formed tags, no character entities) the innerHTML/textContent pair
is exactly tag stripping, which is how the contract of the spec states
the inverse; the DOM machinery itself is environment behaviour, modelled
here by the equivalent string transformation. -/

/-- Replacement of the literal br tag with a newline character. -/
def replaceBrF : Nat → Str → Str
  | 0, s => s
  | _ + 1, [] => []
  | f + 1, c :: rest =>
    if matchesLit brTag (c :: rest) then
      '\n' :: replaceBrF f ((c :: rest).drop 4)
    else c :: replaceBrF f rest

/-- Tag stripping: text content of markup with all tags discarded. -/
def stripTagsF : Nat → Str → Str
  | 0, s => s
  | _ + 1, [] => []
  | f + 1, c :: rest =>
    if c = '<' then
      match firstIdx '>' rest with
      | some i => stripTagsF f (rest.drop (i + 1))
      | none => []
    else c :: stripTagsF f rest

/-- Collapse of runs of three or more newlines to exactly two. -/
def collapse3F : Nat → Str → Str
  | 0, s => s
  | _ + 1, [] => []
  | f + 1, c :: rest =>
    if c = '\n' ∧ matchesLit "\n\n".data rest then
      '\n' :: '\n' :: collapse3F f (rest.dropWhile (· = '\n'))
    else c :: collapse3F f rest

/-- The markup-to-plain-text function of the popup script. -/
def getPlainText (h : Str) : Str :=
  if h = [] then []
  else
    let a := replaceBrF (h.length + 1) h
    let b := stripTagsF (a.length + 1) a
    trimStr (collapse3F (b.length + 1) b)

/-! ### The AI response parser (parseAIResponse)

The parser locates the two labelled sections with case-insensitive
literal markers, extracts bullet points from the summary section,
splits the clauses section into blocks before every line that starts
with an optional bullet marker and a bold-delimited title, and builds
one clause record per block that yields a non-empty title and a
non-empty converted body, with severity and category labels matched
anywhere in the block.  All regular expressions of the source are
reproduced as scanners below. -/

/-- A parsed concerning clause, as pushed by the source. -/
structure Clause where
  title : Str
  text : Str
  severity : Str
  category : Str
deriving DecidableEq

/-- The parser result: the summary markup and the clause sequence. -/
structure AnalysisResult where
  summary : Str
  concerningClauses : List Clause
deriving DecidableEq

/-- The literal summary section marker. -/
def summaryMarker : Str := "**1. SUMMARY:**".data

/-- The lookahead literal ending the lazy summary capture. -/
def summaryLookahead : Str := "**2. CONCERNING CLAUSES:".data

/-- The literal clauses section marker. -/
def clausesMarker : Str := "**2. CONCERNING CLAUSES:**".data

/-- The default summary placeholder returned for unparseable input. -/
def defaultSummary : Str := "<p>Summary could not be parsed.</p>".data

/-- Global multiline matching of bullet lines: a line beginning with a
star or dash marker followed by whitespace, capturing to the end of the
line.  Returns the full match strings, as the JS global match does.
The boolean argument records whether the current position is a line
start. -/
def matchBullets : Nat → Bool → Str → List Str
  | 0, _, _ => []
  | _ + 1, _, [] => []
  | f + 1, atLS, c :: rest =>
    if atLS ∧ (c = '*' ∨ c = '-') ∧ 1 ≤ wsRun rest then
      let w := wsRun rest
      let t := rest.drop w
      let r := lineRun t
      (c :: (rest.take w ++ t.take r)) :: matchBullets f false (t.drop r)
    else matchBullets f (isLineTerm c) rest

/-- Removal of the leading bullet marker and following whitespace from
one matched bullet line. -/
def stripBullet (s : Str) : Str :=
  match s with
  | c :: rest =>
    if (c = '*' ∨ c = '-') ∧ 1 ≤ wsRun rest then rest.drop (wsRun rest) else s
  | [] => []

/-- The summary sub-parser.  The capture group is everything between
the summary marker and the first later occurrence of the clauses
lookahead (or the end of the input); the source additionally requires
the capture to be non-empty before using it. -/
def parseSummary (ai : Str) : Str :=
  match findCI summaryMarker ai with
  | none => defaultSummary
  | some i =>
    let after := ai.drop (i + summaryMarker.length)
    let span :=
      match findCI summaryLookahead after with
      | some j => after.take j
      | none => after
    if span = [] then defaultSummary
    else
      let summaryText := trimStr span
      let bullets := matchBullets (summaryText.length + 1) true summaryText
      if bullets ≠ [] then
        let formatted :=
          ((bullets.map (fun b => trimStr (stripBullet b))).filter (· ≠ [])).map
            convertMarkdownToHtml
        if formatted ≠ [] then
          "<ul>".data ++
            (formatted.map (fun b => "<li>".data ++ b ++ "</li>".data)).flatten ++
            "</ul>".data
        else "<p>".data ++ convertMarkdownToHtml summaryText ++ "</p>".data
      else "<p>".data ++ convertMarkdownToHtml summaryText ++ "</p>".data

/-- The zero-width lookahead used to split the clauses text into
blocks: an optional bullet marker, optional whitespace, then a
bold-delimited title closed on the same line. -/
def titleLookahead (s : Str) : Bool :=
  let core : Str → Bool := fun t =>
    let t2 := t.drop (wsRun t)
    match t2 with
    | c :: rest => c = '*' ∧ rest.head? = some '*' ∧ (closingPair '*' (rest.drop 1)).isSome
    | [] => false
  match s with
  | c :: rest => if c = '*' ∨ c = '-' then (core rest || core s) else core s
  | [] => false

/-- Splitting of the clauses text before each interior line start where
the title lookahead holds (a zero-width split; a match at position zero
produces no leading empty block, as in the JS split semantics). -/
def splitBlocksAux : Nat → Bool → Str → Str → List Str
  | _, _, acc, [] => [acc.reverse]
  | 0, _, acc, rest => [acc.reverse ++ rest]
  | f + 1, atLS, acc, c :: rest =>
    if atLS ∧ titleLookahead (c :: rest) then
      acc.reverse :: splitBlocksAux f (isLineTerm c) [c] rest
    else splitBlocksAux f (isLineTerm c) (c :: acc) rest

/-- Split of the clauses text into candidate blocks. -/
def splitBlocks (s : Str) : List Str := splitBlocksAux (s.length + 1) false [] s

/-- The title pattern anchored at the start of a trimmed block: an
optional bullet marker, optional whitespace, a double star, a lazy
capture without line terminators, a closing double star.  Returns the
length of the full match and the capture. -/
def titleCore (t : Str) (consumed : Nat) : Option (Nat × Str) :=
  let w := wsRun t
  match t.drop w with
  | c :: rest =>
    if c = '*' ∧ rest.head? = some '*' then
      match closingPair '*' (rest.drop 1) with
      | some i => some (consumed + w + 2 + i + 2, (rest.drop 1).take i)
      | none => none
    else none
  | [] => none

/-- Title match at the start of a block, trying the greedy optional
marker first, as the regex engine does. -/
def titleMatchAt (s : Str) : Option (Nat × Str) :=
  match s with
  | c :: rest =>
    if c = '*' ∨ c = '-' then
      match titleCore rest 1 with
      | some r => some r
      | none => titleCore s 0
    else titleCore s 0
  | [] => none

/-- Length of a severity level match (High, Medium or Low, tried in the
alternation order of the source pattern, case-insensitively). -/
def levelAt (s : Str) : Option Nat :=
  if matchesCI "high".data s then some 4
  else if matchesCI "medium".data s then some 6
  else if matchesCI "low".data s then some 3
  else none

/-- Length of a two-word alternative: first word, exactly one
whitespace character, second word, case-insensitively. -/
def twoWord (w1 w2 : Str) (s : Str) : Option Nat :=
  if matchesCI w1 s then
    match s.drop w1.length with
    | c :: rest2 =>
      if isWs c ∧ matchesCI w2 rest2 then some (w1.length + 1 + w2.length)
      else none
    | [] => none
  else none

/-- Length of a category match, alternatives in source order. -/
def catAt (s : Str) : Option Nat :=
  if matchesCI "privacy".data s then some 7
  else
    match twoWord "data".data "usage".data s with
    | some n => some n
    | none =>
      match twoWord "legal".data "rights".data s with
      | some n => some n
      | none =>
        match twoWord "service".data "changes".data s with
        | some n => some n
        | none => twoWord "user".data "content".data s

/-- One attempt of the label-anywhere pattern at a fixed position: the
label literal, optional whitespace, then a value alternative; on
success the capture (the value slice exactly as written). -/
def labelTryAt (label : Str) (lenAt : Str → Option Nat) (s : Str) : Option Str :=
  if matchesCI label s then
    let t := s.drop label.length
    let t2 := t.drop (wsRun t)
    (lenAt t2).map fun n => t2.take n
  else none

/-- Scan of a block for the first position where the label pattern
matches, as the unanchored JS regexes for severity and category do. -/
def labelSearch (label : Str) (lenAt : Str → Option Nat) : Str → Option Str
  | [] => none
  | c :: rest =>
    match labelTryAt label lenAt (c :: rest) with
    | some cap => some cap
    | none => labelSearch label lenAt rest

/-- Replacement of runs of whitespace by a single hyphen (the category
normalization replace). -/
def hyphenWs (inRun : Bool) : Str → Str
  | [] => []
  | c :: rest =>
    if isWs c then
      if inRun then hyphenWs true rest else '-' :: hyphenWs true rest
    else c :: hyphenWs false rest

/-- Severity of a block: the lower-cased capture, defaulting to medium. -/
def extractSeverity (tb : Str) : Str :=
  match labelSearch "severity:".data levelAt tb with
  | some cap => toLowerStr cap
  | none => "medium".data

/-- Category of a block: the capture with whitespace runs hyphenated and
lower-cased, defaulting to general. -/
def extractCategory (tb : Str) : Str :=
  match labelSearch "category:".data catAt tb with
  | some cap => toLowerStr (hyphenWs false cap)
  | none => "general".data

/-- One whole-line label-removal match attempted at a line start:
optional leading whitespace, the label, optional whitespace, a value
alternative, then (for the multiline dollar) trailing whitespace up to
the end of the string or up to the last line terminator of the maximal
trailing whitespace run.  Returns the length of the full match. -/
def lastTermIdx : Str → Option Nat
  | [] => none
  | c :: rest =>
    match lastTermIdx rest with
    | some i => some (i + 1)
    | none => if isLineTerm c then some 0 else none

/-- Length of the trailing whitespace-then-dollar part of a whole-line
label match, or none when the dollar cannot be satisfied. -/
def trailingLen (t : Str) : Option Nat :=
  let w := wsRun t
  if t.drop w = [] then some w else lastTermIdx (t.take w)

/-- Length of a whole-line label match starting at a line start. -/
def labelLineLen (label : Str) (lenAt : Str → Option Nat) (s : Str) : Option Nat :=
  let w1 := wsRun s
  let t1 := s.drop w1
  if matchesCI label t1 then
    let t2 := t1.drop label.length
    let w2 := wsRun t2
    let t3 := t2.drop w2
    match lenAt t3 with
    | some n =>
      match trailingLen (t3.drop n) with
      | some k => some (w1 + label.length + w2 + n + k)
      | none => none
    | none => none
  else none

/-- Global multiline replacement of whole-line label matches by the
empty string; the boolean tracks whether the position is a line start
of the original string. -/
def removeLabelF (label : Str) (lenAt : Str → Option Nat) :
    Nat → Bool → Str → Str
  | 0, _, s => s
  | _ + 1, _, [] => []
  | f + 1, atLS, c :: rest =>
    if atLS then
      match labelLineLen label lenAt (c :: rest) with
      | some n =>
        let consumed := (c :: rest).take n
        removeLabelF label lenAt f (decide (consumed.getLast? = some '\n') ||
          decide (consumed.getLast? = some '\r')) ((c :: rest).drop n)
      | none => c :: removeLabelF label lenAt f (isLineTerm c) rest
    else c :: removeLabelF label lenAt f (isLineTerm c) rest

/-- Removal of stand-alone severity label lines from a block body. -/
def removeSevLines (s : Str) : Str :=
  removeLabelF "severity:".data levelAt (s.length + 1) true s

/-- Removal of stand-alone category label lines from a block body. -/
def removeCatLines (s : Str) : Str :=
  removeLabelF "category:".data catAt (s.length + 1) true s

/-- Title of a block: the trimmed capture of the anchored title match
on the trimmed block, or none when the pattern does not match. -/
def clauseTitle (block : Str) : Option Str :=
  (titleMatchAt (trimStr block)).map fun r => trimStr r.2

/-- Raw explanation text of a block: the trimmed block with the full
title match removed from its front. -/
def clauseRawText (block : Str) : Str :=
  let tb := trimStr block
  match titleMatchAt tb with
  | some r => tb.drop r.1
  | none => tb

/-- Converted explanation text of a block: severity and category lines
removed, trimmed, then converted to markup. -/
def clauseText (block : Str) : Str :=
  convertMarkdownToHtml (trimStr (removeCatLines (removeSevLines (clauseRawText block))))

/-- Processing of one candidate block, yielding a clause exactly when
both the extracted title and the converted text are non-empty. -/
def parseClauseBlock (block : Str) : Option Clause :=
  let tb := trimStr block
  if tb = [] then none
  else
    match clauseTitle block with
    | none => none
    | some tt =>
      if tt ≠ [] ∧ clauseText block ≠ [] then
        some ⟨tt, clauseText block, extractSeverity tb, extractCategory tb⟩
      else none

/-! ### The presentation sort

The source sorts with Array.prototype.sort and a comparator that ranks
high severity strictly before everything else and ties all other pairs;
the ECMAScript specification requires the sort to be stable and, for
this consistent comparator, the result is the unique stable order.  It
is embedded as a stable insertion sort with the same comparator. -/

/-- The comparator default: an empty severity counts as medium. -/
def sevOr (c : Clause) : Str :=
  if c.severity = [] then "medium".data else c.severity

/-- The comparator of the source sort. -/
def clauseCmp (a b : Clause) : Int :=
  if sevOr a = "high".data ∧ ¬sevOr b = "high".data then -1
  else if ¬sevOr a = "high".data ∧ sevOr b = "high".data then 1
  else 0

/-- Stable insertion of one clause: it goes before the first element it
does not compare strictly after. -/
def insertCmp (a : Clause) : List Clause → List Clause
  | [] => [a]
  | b :: bs => if clauseCmp a b ≤ 0 then a :: b :: bs else b :: insertCmp a bs

/-- Stable insertion sort with the source comparator. -/
def insertionSortClauses : List Clause → List Clause
  | [] => []
  | a :: as => insertCmp a (insertionSortClauses as)

/-- The sort step as performed by the source: only lists with more than
one element are sorted. -/
def presentSort (l : List Clause) : List Clause :=
  if 1 < l.length then insertionSortClauses l else l

/-- Does a clause carry high severity (after the comparator default)? -/
def isHighClause (c : Clause) : Bool := decide (sevOr c = "high".data)

/-- The candidate blocks of a response: the split of the trimmed
clauses capture, with blocks that trim to nothing discarded; empty when
the clauses marker is absent or captures nothing. -/
def clauseBlocksOf (ai : Str) : List Str :=
  match findCI clausesMarker ai with
  | none => []
  | some i =>
    let capture := ai.drop (i + clausesMarker.length)
    if capture = [] then []
    else (splitBlocks (trimStr capture)).filter fun b => trimStr b ≠ []

/-- The clause list of a response: the admitted blocks, sorted. -/
def parseClauses (ai : Str) : List Clause :=
  presentSort ((clauseBlocksOf ai).filterMap parseClauseBlock)

/-- The full response parser. -/
def parseAIResponse (ai : Str) : AnalysisResult :=
  { summary := parseSummary ai, concerningClauses := parseClauses ai }

/-! ### The terms-and-conditions extractor (content script)

The extractor walks a document with DOM queries.  The document is
modelled by the data the algorithm reads: the selector query map, the
headings with their text, their parent's script/style-stripped raw text
and their forward sibling chain, the iframe text results (none for a
load error or timeout), the title and location used by the
likely-T-and-C test, and the body's raw text.  The helper
getTextContentWithoutScriptsStyles is the script/style-stripped
textContent (kept abstract as the rawText fields) followed by the
whitespace collapse and trim embedded as cleanText. -/

/-- An element as the extractor sees it: its textContent after the
script/style sub-trees are removed. -/
structure Element where
  rawText : Str
deriving DecidableEq

/-- A sibling in the forward walk after a matched heading. -/
structure Sib where
  tag : Str
  rawText : Str
deriving DecidableEq

/-- A heading together with the data the heading strategy reads. -/
structure Heading where
  text : Str
  parentRaw : Option Str
  siblings : List Sib

/-- The document model. -/
structure Doc where
  query : Str → Option Element
  headings : List Heading
  iframes : List (Option Str)
  title : Str
  url : Str
  bodyRaw : Str

/-- The cleanup applied throughout: collapse every run of two or more
whitespace characters to a single space, then trim. -/
def collapseWsAux : Bool → Str → Str
  | _, [] => []
  | inRun, c :: rest =>
    if isWs c then
      if inRun then collapseWsAux true rest
      else
        match rest with
        | d :: _ =>
          if isWs d then ' ' :: collapseWsAux true rest
          else c :: collapseWsAux false rest
        | [] => [c]
    else c :: collapseWsAux false rest

/-- Cleaned text of a raw textContent string. -/
def cleanText (s : Str) : Str := trimStr (collapseWsAux false s)

/-- The fixed priority-ordered selector list of the content script. -/
def possibleSelectors : List Str :=
  ["#terms".data, "#terms-and-conditions".data, "#termsAndConditions".data,
   "#terms-of-service".data, "#termsOfService".data, "#tos".data,
   "#legal-terms".data, "#legalTerms".data, "#legal".data,
   "#privacy-policy".data, "#privacyPolicy".data, "#privacy".data,
   "#user-agreement".data, "#userAgreement".data, "#eula".data,
   "#license-agreement".data, ".terms".data, ".terms-and-conditions".data,
   ".termsAndConditions".data, ".terms-of-service".data, ".termsOfService".data,
   ".tos".data, ".legal-terms".data, ".legalTerms".data, ".legal".data,
   ".privacy-policy".data, ".privacyPolicy".data, ".privacy".data,
   ".user-agreement".data, ".userAgreement".data, ".eula".data,
   ".license-agreement".data, "article.terms".data, "section.terms".data,
   "div.terms".data, "div.legal".data, "article.policy".data,
   "section.policy".data, "div.policy".data]

/-- The generic container selectors of the fallback stage. -/
def commonContainers : List Str :=
  ["main".data, "article".data, "#content".data, ".content".data,
   ".main-content".data, ".entry-content".data]

/-- The keyword set of the likely-T-and-C regex. -/
def legalKeywords : List Str :=
  ["terms".data, "conditions".data, "tos".data, "legal".data,
   "policy".data, "agreement".data, "privacy".data]

/-- The heading keyword list. -/
def headingKeywords : List Str :=
  ["terms".data, "conditions".data, "terms of service".data,
   "terms of use".data, "tos".data, "legal".data, "agreement".data,
   "privacy policy".data, "policy".data, "user agreement".data,
   "eula".data, "license".data]

/-- The case-insensitive legal-keyword test on one string. -/
def testLegal (s : Str) : Bool := legalKeywords.any fun kw => (findCI kw s).isSome

/-- Whether the page looks like a T-and-C page (title or location). -/
def isLikelyTCPage (d : Doc) : Bool := testLegal d.title || testLegal d.url

/-- First selector whose element has cleaned text longer than 500. -/
def trySelectors (d : Doc) : List Str → Option Str
  | [] => none
  | sel :: rest =>
    match d.query sel with
    | some el =>
      let t := cleanText el.rawText
      if 500 < t.length then some t else trySelectors d rest
    | none => trySelectors d rest

/-- Does a heading text (lower-cased) contain a heading keyword? -/
def kwMatchHeading (t : Str) : Bool :=
  headingKeywords.any fun kw => containsSub (toLowerStr t) kw

/-- Is a tag name a heading tag (H followed by a digit one to six)? -/
def isHeadingTag (tag : Str) : Bool :=
  match tag with
  | [c, d] => decide (c = 'H') && decide ('1' ≤ d) && decide (d ≤ '6')
  | _ => false

/-- The forward sibling walk: stop at the next heading or once 100000
characters were collected, skip script and style tags, concatenate the
cleaned sibling texts with paragraph breaks. -/
def collectSiblings : List Sib → Nat → Str
  | [], _ => []
  | sib :: rest, acc =>
    if isHeadingTag sib.tag ∨ 100000 ≤ acc then []
    else if sib.tag ≠ "SCRIPT".data ∧ sib.tag ≠ "STYLE".data then
      let st := cleanText sib.rawText
      st ++ '\n' :: '\n' :: collectSiblings rest (acc + st.length)
    else collectSiblings rest acc

/-- The heading strategy for one heading: parent first (between 1000
and 100000 characters and still containing the heading text), then the
sibling walk (more than 500 characters after trimming). -/
def tryHeading (h : Heading) : Option Str :=
  if kwMatchHeading h.text then
    let parentResult :=
      match h.parentRaw with
      | some praw =>
        let pc := cleanText praw
        if 1000 < pc.length ∧ pc.length < 100000 ∧ containsSub pc h.text then
          some pc
        else none
      | none => none
    match parentResult with
    | some pc => some pc
    | none =>
      let content := trimStr (collectSiblings h.siblings 0)
      if 500 < content.length then some content else none
  else none

/-- First heading for which the heading strategy succeeds. -/
def tryHeadings : List Heading → Option Str
  | [] => none
  | h :: rest =>
    match tryHeading h with
    | some t => some t
    | none => tryHeadings rest

/-- The iframe strategy: skip failed frames, accept the first cleaned
frame text longer than 1000 characters on a likely T-and-C page. -/
def tryIframes (likely : Bool) : List (Option Str) → Option Str
  | [] => none
  | none :: rest => tryIframes likely rest
  | some raw :: rest =>
    let clean := trimStr (collapseWsAux false raw)
    if 1000 < clean.length ∧ likely then some clean
    else tryIframes likely rest

/-- The container fallback: first common container with cleaned text
longer than 1000 characters. -/
def tryContainers (d : Doc) : List Str → Option Str
  | [] => none
  | sel :: rest =>
    match d.query sel with
    | some el =>
      let t := cleanText el.rawText
      if 1000 < t.length then some t else tryContainers d rest
    | none => tryContainers d rest

/-- The full extractor: strategies in strict priority order, first
success wins, the container and body fallbacks only on a likely
T-and-C page, the body fallback requiring more than 1500 characters. -/
def extractTermsAndConditions (d : Doc) : Option Str :=
  match trySelectors d possibleSelectors with
  | some t => some t
  | none =>
    match tryHeadings d.headings with
    | some t => some t
    | none =>
      let likely := isLikelyTCPage d
      match tryIframes likely d.iframes with
      | some t => some t
      | none =>
        if likely then
          match tryContainers d commonContainers with
          | some t => some t
          | none =>
            let bt := cleanText d.bodyRaw
            if 1500 < bt.length then some bt else none
        else none

/-! ### The API reply validation (processWithAI)

After a successful HTTP exchange the caller requires a non-empty text
field at the conventional nested position of the reply and otherwise
throws; the optional-chain access is modelled with option layers and
the throw as the error side of Except. -/

/-- One part of a candidate content. -/
structure ApiPart where
  text : Option Str

/-- The content of a candidate. -/
structure ApiContent where
  parts : List ApiPart

/-- One reply candidate. -/
structure ApiCandidate where
  content : Option ApiContent

/-- The parsed JSON body of a model reply. -/
structure ApiData where
  candidates : Option (List ApiCandidate)

/-- The optional-chain access data candidates zero content parts zero
text of the source. -/
def nestedText : Option ApiData → Option Str
  | none => none
  | some d =>
    match d.candidates with
    | none => none
    | some [] => none
    | some (cand :: _) =>
      match cand.content with
      | none => none
      | some ct =>
        match ct.parts with
        | [] => none
        | p :: _ => p.text

/-- The error message thrown for an unexpected reply shape. -/
def unexpectedMsg : Str :=
  "Received an unexpected response format from the AI service.".data

/-- The validation step: a missing or empty text field (both falsy in
the source guard) is a hard error. -/
def extractAiText (d : Option ApiData) : Except Str Str :=
  match nestedText d with
  | some t => if t = [] then Except.error unexpectedMsg else Except.ok t
  | none => Except.error unexpectedMsg

/-- The tail of processWithAI after the HTTP exchange: validate the
reply shape, then parse the text. -/
def processAIData (d : Option ApiData) : Except Str AnalysisResult :=
  match extractAiText d with
  | Except.ok t => Except.ok (parseAIResponse t)
  | Except.error e => Except.error e

/-- Success observation on the model of processWithAI. -/
def isOkResult : Except Str AnalysisResult → Bool
  | Except.ok _ => true
  | Except.error _ => false

/-! ### Lemmas about the presentation sort -/

theorem insertCmp_high (a : Clause) (h : isHighClause a = true) (l : List Clause) :
    insertCmp a l = a :: l := by
  cases l with
  | nil => rfl
  | cons b bs =>
    have ha : sevOr a = "high".data := by
      simpa [isHighClause] using h
    by_cases hb : sevOr b = "high".data <;>
      simp [insertCmp, clauseCmp, ha, hb]

theorem insertCmp_nonhigh (a : Clause) (ha : isHighClause a = false)
    (H N : List Clause) (hH : ∀ b ∈ H, isHighClause b = true)
    (hN : ∀ b ∈ N, isHighClause b = false) :
    insertCmp a (H ++ N) = H ++ a :: N := by
  have ha' : ¬sevOr a = "high".data := by
    simpa [isHighClause] using ha
  induction H with
  | nil =>
    cases N with
    | nil => rfl
    | cons b bs =>
      have hb : ¬sevOr b = "high".data := by
        simpa [isHighClause] using hN b (by simp)
      simp [insertCmp, clauseCmp, ha', hb]
  | cons h0 H' ih =>
    have hh0 : sevOr h0 = "high".data := by
      simpa [isHighClause] using hH h0 (by simp)
    have step : insertCmp a (h0 :: (H' ++ N)) = h0 :: insertCmp a (H' ++ N) := by
      simp [insertCmp, clauseCmp, ha', hh0]
    simpa [step] using congrArg (h0 :: ·) (ih fun b hb => hH b (by simp [hb]))

theorem insertionSortClauses_partition (l : List Clause) :
    insertionSortClauses l =
      l.filter isHighClause ++ l.filter (fun c => !isHighClause c) := by
  induction l with
  | nil => rfl
  | cons a as ih =>
    show insertCmp a (insertionSortClauses as) = _
    rw [ih]
    by_cases ha : isHighClause a = true
    · rw [insertCmp_high a ha]
      simp [List.filter_cons, ha]
    · have ha' : isHighClause a = false := by simpa using ha
      rw [insertCmp_nonhigh a ha' _ _
        (fun b hb => (List.mem_filter.mp hb).2)
        (fun b hb => by simpa using (List.mem_filter.mp hb).2)]
      simp [List.filter_cons, ha']

/-- C2.  For every clause list, the presentation sort is exactly the
stable partition by high severity: the high-severity clauses come
first, in their original parse order, followed by all other clauses
(medium and low alike) in their original parse order.  In particular
every high clause appears before every non-high clause, and neither
class is internally reordered. -/
theorem presentSort_partitions (l : List Clause) :
    presentSort l = l.filter isHighClause ++ l.filter (fun c => !isHighClause c) := by
  unfold presentSort
  by_cases h : 1 < l.length
  · rw [if_pos h]
    exact insertionSortClauses_partition l
  · rw [if_neg h]
    cases l with
    | nil => rfl
    | cons a t =>
      cases t with
      | nil =>
        by_cases hc : isHighClause a = true
        · simp [List.filter_cons, hc]
        · have hc' : isHighClause a = false := by simpa using hc
          simp [List.filter_cons, hc']
      | cons b t' =>
        exfalso
        apply h
        simp [List.length_cons]

/-! ### The concrete parsing scenario of the spec -/

/-- The model response text of the testable-property scenario. -/
def scenarioInput : Str :=
  ("**1. SUMMARY:**\n* Point one\n* Point two\n**2. CONCERNING CLAUSES:**\n" ++
   "**Broad Discretion**\nThis clause is vague.\nSeverity: High\nCategory: Legal Rights").data

/-- C3.  On the scenario response text the parser produces exactly the
two-item unordered summary list and a single clause titled Broad
Discretion with high severity, category legal-rights, and the body with
the severity and category label lines stripped. -/
theorem parse_scenario_result :
    parseAIResponse scenarioInput =
      { summary := "<ul><li>Point one</li><li>Point two</li></ul>".data,
        concerningClauses :=
          [⟨"Broad Discretion".data, "This clause is vague.".data,
            "high".data, "legal-rights".data⟩] } := by
  decide

/-! ### Behaviour of the parser when section markers are missing -/

/-- C1 counterexample.  An input that lacks the clauses section marker
but carries a summary section: the clause list is empty, yet the
summary is the parsed paragraph, not the default placeholder, so the
claim that the summary always equals the placeholder on such inputs is
false. -/
theorem missing_clauses_marker_counterexample :
    findCI clausesMarker "**1. SUMMARY:**\nfoo".data = none ∧
    (parseAIResponse "**1. SUMMARY:**\nfoo".data).concerningClauses = [] ∧
    (parseAIResponse "**1. SUMMARY:**\nfoo".data).summary ≠ defaultSummary := by
  decide

/-- C1 amended.  For every input without the clauses section marker the
clause list is empty (and the parser, a total function, cannot throw);
the summary equals the default placeholder exactly on inputs that also
lack the summary section marker. -/
theorem missing_clauses_marker_empty (ai : Str)
    (h : findCI clausesMarker ai = none) :
    (parseAIResponse ai).concerningClauses = [] ∧
    (findCI summaryMarker ai = none →
      (parseAIResponse ai).summary = defaultSummary) := by
  constructor
  · show parseClauses ai = []
    unfold parseClauses clauseBlocksOf
    rw [h]
    rfl
  · intro hs
    show parseSummary ai = defaultSummary
    unfold parseSummary
    rw [hs]

/-- C1 amended, witness at a concrete input without either marker. -/
theorem missing_clauses_marker_empty_witness :
    findCI clausesMarker "hello".data = none ∧
    ((parseAIResponse "hello".data).concerningClauses = [] ∧
     (findCI summaryMarker "hello".data = none →
       (parseAIResponse "hello".data).summary = defaultSummary)) :=
  ⟨by decide, missing_clauses_marker_empty "hello".data (by decide)⟩

/-! ### The API reply success criterion -/

/-- C9.  The modelled processWithAI tail succeeds exactly when a
non-empty text field is present at the nested candidate/content
position of the reply; a missing or empty field yields the error side
(the thrown unexpected-format error), never an empty analysis result. -/
theorem processAIData_ok_iff (d : Option ApiData) :
    isOkResult (processAIData d) = true ↔
      ∃ t, nestedText d = some t ∧ t ≠ [] := by
  unfold processAIData extractAiText
  cases h : nestedText d with
  | none => simp [isOkResult]
  | some t =>
    by_cases ht : t = []
    · subst ht
      simp [isOkResult]
    · simp [ht, isOkResult]

/-! ### Which blocks are admitted as clauses -/

/-- C4.  A candidate block of a response contributes a clause exactly
when its extracted title is present and non-empty and its converted
explanation text is non-empty; in particular a block whose title
pattern does not match is dropped and no title is synthesized. -/
theorem clause_admission_iff (ai b : Str) (hb : b ∈ clauseBlocksOf ai) :
    (parseClauseBlock b).isSome = true ↔
      ((∃ tt, clauseTitle b = some tt ∧ tt ≠ []) ∧ clauseText b ≠ []) := by
  have htb : ¬trimStr b = [] := by
    unfold clauseBlocksOf at hb
    cases hfind : findCI clausesMarker ai with
    | none =>
      rw [hfind] at hb
      simp at hb
    | some i =>
      rw [hfind] at hb
      dsimp only at hb
      by_cases hcap : ai.drop (i + clausesMarker.length) = []
      · rw [if_pos hcap] at hb
        simp at hb
      · rw [if_neg hcap] at hb
        simpa using (List.mem_filter.mp hb).2
  unfold parseClauseBlock
  rw [if_neg htb]
  cases h : clauseTitle b with
  | none => simp
  | some tt =>
    dsimp only
    by_cases hc : tt ≠ [] ∧ clauseText b ≠ []
    · rw [if_pos hc]
      simp [hc.1, hc.2]
    · rw [if_neg hc]
      simp only [Option.isSome_none, Bool.false_eq_true, false_iff]
      intro hcon
      obtain ⟨⟨tt', htt', hne⟩, htext⟩ := hcon
      cases htt'
      exact hc ⟨hne, htext⟩

/-- C4 witness at a concrete response with a single titled block. -/
theorem clause_admission_iff_witness :
    "**T**\nbody".data ∈ clauseBlocksOf "**2. CONCERNING CLAUSES:**\n**T**\nbody".data ∧
    ((parseClauseBlock "**T**\nbody".data).isSome = true ↔
      ((∃ tt, clauseTitle "**T**\nbody".data = some tt ∧ tt ≠ []) ∧
        clauseText "**T**\nbody".data ≠ [])) :=
  ⟨by decide,
   clause_admission_iff "**2. CONCERNING CLAUSES:**\n**T**\nbody".data
     "**T**\nbody".data (by decide)⟩

/-! ### Validity of the severity and category enums -/

/-- The valid severity values of the data model. -/
def validSeverities : List Str := ["high".data, "medium".data, "low".data]

/-- The valid category values of the data model. -/
def validCategories : List Str :=
  ["privacy".data, "data-usage".data, "legal-rights".data,
   "service-changes".data, "user-content".data, "general".data]

theorem matchesCI_toLower (pat : Str) :
    ∀ s, matchesCI pat s = true → toLowerStr (s.take pat.length) = toLowerStr pat := by
  induction pat with
  | nil =>
    intro s _
    rfl
  | cons p ps ih =>
    intro s h
    cases s with
    | nil => exact absurd h (by simp [matchesCI])
    | cons c cs =>
      have h' := h
      simp only [matchesCI, Bool.and_eq_true] at h'
      have hc : lowerChar c = lowerChar p := by
        have := of_decide_eq_true h'.1
        exact this.symm
      simp only [List.length_cons, List.take_succ_cons, toLowerStr, List.map_cons]
      rw [hc]
      have := ih cs h'.2
      simpa [toLowerStr] using this

theorem labelSearch_spec (label : Str) (lenAt : Str → Option Nat) :
    ∀ s cap, labelSearch label lenAt s = some cap →
      ∃ t2 n, lenAt t2 = some n ∧ cap = t2.take n := by
  intro s
  induction s with
  | nil =>
    intro cap h
    exact absurd h (by simp [labelSearch])
  | cons c rest ih =>
    intro cap h
    unfold labelSearch at h
    cases htry : labelTryAt label lenAt (c :: rest) with
    | some cap' =>
      rw [htry] at h
      cases h
      unfold labelTryAt at htry
      by_cases hm : matchesCI label (c :: rest) = true
      · rw [if_pos hm] at htry
        obtain ⟨n, hn, hcap⟩ := Option.map_eq_some'.mp htry
        exact ⟨_, n, hn, hcap.symm⟩
      · rw [if_neg hm] at htry
        exact absurd htry (by simp)
    | none =>
      rw [htry] at h
      exact ih cap h

theorem levelAt_lower {t2 : Str} {n : Nat} (h : levelAt t2 = some n) :
    toLowerStr (t2.take n) = "high".data ∨
    toLowerStr (t2.take n) = "medium".data ∨
    toLowerStr (t2.take n) = "low".data := by
  unfold levelAt at h
  by_cases h1 : matchesCI "high".data t2 = true
  · rw [if_pos h1] at h
    cases h
    exact Or.inl (matchesCI_toLower "high".data t2 h1)
  · rw [if_neg h1] at h
    by_cases h2 : matchesCI "medium".data t2 = true
    · rw [if_pos h2] at h
      cases h
      exact Or.inr (Or.inl (matchesCI_toLower "medium".data t2 h2))
    · rw [if_neg h2] at h
      by_cases h3 : matchesCI "low".data t2 = true
      · rw [if_pos h3] at h
        cases h
        exact Or.inr (Or.inr (matchesCI_toLower "low".data t2 h3))
      · rw [if_neg h3] at h
        exact absurd h (by simp)

theorem extractSeverity_mem (s : Str) : extractSeverity s ∈ validSeverities := by
  unfold extractSeverity
  cases h : labelSearch "severity:".data levelAt s with
  | none => simp [validSeverities]
  | some cap =>
    obtain ⟨t2, n, hn, hcap⟩ := labelSearch_spec _ _ s cap h
    subst hcap
    rcases levelAt_lower hn with hl | hl | hl <;>
      simp [validSeverities, hl]

theorem lowerChar_of_ws {c : Char} (h : isWs c = true) : lowerChar c = c := by
  unfold lowerChar
  rw [if_neg]
  intro hc
  obtain ⟨h1, h2⟩ := hc
  unfold isWs at h
  simp only [Bool.or_eq_true, beq_iff_eq, Bool.and_eq_true, decide_eq_true_eq] at h
  omega

theorem wsFree_of_toLower {A L : Str} (h : toLowerStr A = L)
    (hL : ∀ c ∈ L, isWs c = false) : ∀ c ∈ A, isWs c = false := by
  intro c hc
  by_contra hw
  have hw' : isWs c = true := by simpa using hw
  have hmem : lowerChar c ∈ toLowerStr A := List.mem_map_of_mem lowerChar hc
  rw [h] at hmem
  have hfalse := hL _ hmem
  rw [lowerChar_of_ws hw'] at hfalse
  rw [hfalse] at hw'
  exact absurd hw' (by simp)

theorem hyphenWs_id {A : Str} (h : ∀ c ∈ A, isWs c = false) :
    ∀ flag, hyphenWs flag A = A := by
  induction A with
  | nil =>
    intro flag
    rfl
  | cons c rest ih =>
    intro flag
    have hc := h c (by simp)
    have ih' := ih (fun d hd => h d (List.mem_cons_of_mem _ hd))
    simp [hyphenWs, hc, ih' false]

theorem hyphenWs_append {A : Str} (t : Str) (h : ∀ c ∈ A, isWs c = false) :
    hyphenWs false (A ++ t) = A ++ hyphenWs false t := by
  induction A with
  | nil => rfl
  | cons c rest ih =>
    have hc := h c (by simp)
    simp [hyphenWs, hc, ih (fun d hd => h d (List.mem_cons_of_mem _ hd))]

theorem twoWord_spec {w1 w2 s : Str} {n : Nat} (h : twoWord w1 w2 s = some n) :
    matchesCI w1 s = true ∧
    ∃ c rest2, s.drop w1.length = c :: rest2 ∧ isWs c = true ∧
      matchesCI w2 rest2 = true ∧ n = w1.length + 1 + w2.length := by
  unfold twoWord at h
  by_cases hm : matchesCI w1 s = true
  · rw [if_pos hm] at h
    refine ⟨hm, ?_⟩
    cases hd : s.drop w1.length with
    | nil =>
      rw [hd] at h
      exact absurd h (by simp)
    | cons c rest2 =>
      rw [hd] at h
      dsimp only at h
      by_cases hcw : isWs c = true ∧ matchesCI w2 rest2 = true
      · rw [if_pos hcw] at h
        cases h
        exact ⟨c, rest2, rfl, hcw.1, hcw.2, rfl⟩
      · rw [if_neg hcw] at h
        exact absurd h (by simp)
  · rw [if_neg hm] at h
    exact absurd h (by simp)

theorem toLowerStr_append (a b : Str) :
    toLowerStr (a ++ b) = toLowerStr a ++ toLowerStr b := by
  simp [toLowerStr]

theorem toLowerStr_cons (c : Char) (a : Str) :
    toLowerStr (c :: a) = lowerChar c :: toLowerStr a := by
  simp [toLowerStr]

theorem extractCategory_twoWord {w1 w2 s : Str} {n : Nat}
    (h : twoWord w1 w2 s = some n)
    (hw1 : toLowerStr w1 = w1) (hw2 : toLowerStr w2 = w2)
    (hf1 : ∀ c ∈ w1, isWs c = false) (hf2 : ∀ c ∈ w2, isWs c = false) :
    toLowerStr (hyphenWs false (s.take n)) = w1 ++ '-' :: w2 := by
  obtain ⟨hm1, c, rest2, hd, hcw, hm2, hn⟩ := twoWord_spec h
  subst hn
  have hA : toLowerStr (s.take w1.length) = w1 := by
    rw [matchesCI_toLower w1 s hm1, hw1]
  have hB : toLowerStr (rest2.take w2.length) = w2 := by
    rw [matchesCI_toLower w2 rest2 hm2, hw2]
  have hAf : ∀ d ∈ s.take w1.length, isWs d = false := wsFree_of_toLower hA hf1
  have hBf : ∀ d ∈ rest2.take w2.length, isWs d = false := wsFree_of_toLower hB hf2
  have hsplit : s.take (w1.length + 1 + w2.length) =
      s.take w1.length ++ c :: rest2.take w2.length := by
    rw [Nat.add_assoc, List.take_add, hd]
    congr 1
    rw [Nat.add_comm 1 w2.length]
    exact List.take_succ_cons
  rw [hsplit, hyphenWs_append _ hAf]
  have hmid : hyphenWs false (c :: rest2.take w2.length) =
      '-' :: rest2.take w2.length := by
    simp [hyphenWs, hcw, hyphenWs_id hBf true]
  rw [hmid, toLowerStr_append, hA, toLowerStr_cons, hB]
  rfl

theorem catAt_cases {t2 : Str} {n : Nat} (h : catAt t2 = some n) :
    toLowerStr (hyphenWs false (t2.take n)) ∈
      ["privacy".data, "data-usage".data, "legal-rights".data,
       "service-changes".data, "user-content".data] := by
  unfold catAt at h
  by_cases h1 : matchesCI "privacy".data t2 = true
  · rw [if_pos h1] at h
    cases h
    have hA : toLowerStr (t2.take 7) = "privacy".data := by
      have := matchesCI_toLower "privacy".data t2 h1
      rwa [show ("privacy".data : Str).length = 7 from rfl] at this
    have hAf : ∀ d ∈ t2.take 7, isWs d = false := wsFree_of_toLower hA (by decide)
    rw [hyphenWs_id hAf false, hA]
    simp
  · rw [if_neg h1] at h
    cases h2 : twoWord "data".data "usage".data t2 with
    | some m =>
      rw [h2] at h
      cases h
      have := extractCategory_twoWord h2 (by decide) (by decide) (by decide) (by decide)
      rw [this]
      simp
    | none =>
      rw [h2] at h
      cases h3 : twoWord "legal".data "rights".data t2 with
      | some m =>
        rw [h3] at h
        cases h
        have := extractCategory_twoWord h3 (by decide) (by decide) (by decide) (by decide)
        rw [this]
        simp
      | none =>
        rw [h3] at h
        cases h4 : twoWord "service".data "changes".data t2 with
        | some m =>
          rw [h4] at h
          cases h
          have := extractCategory_twoWord h4 (by decide) (by decide) (by decide) (by decide)
          rw [this]
          simp
        | none =>
          rw [h4] at h
          have := extractCategory_twoWord h (by decide) (by decide) (by decide) (by decide)
          rw [this]
          simp

theorem extractCategory_mem (s : Str) : extractCategory s ∈ validCategories := by
  unfold extractCategory
  cases h : labelSearch "category:".data catAt s with
  | none => simp [validCategories]
  | some cap =>
    obtain ⟨t2, n, hn, hcap⟩ := labelSearch_spec _ _ s cap h
    subst hcap
    have hmem := catAt_cases hn
    simp only [List.mem_cons, List.not_mem_nil, or_false] at hmem
    rcases hmem with hc | hc | hc | hc | hc <;> simp [validCategories, hc]

/-- C5.  Every clause admitted by the block parser carries a severity
from the valid enum (high, medium or low: a matched label lower-cased,
or the default medium) and a category from the valid enum (a matched
label hyphenated and lower-cased, or the default general) — never an
out-of-vocabulary, null or undefined value. -/
theorem clause_enums_valid (block : Str) (c : Clause)
    (h : parseClauseBlock block = some c) :
    c.severity ∈ validSeverities ∧ c.category ∈ validCategories := by
  unfold parseClauseBlock at h
  by_cases htb : trimStr block = []
  · rw [if_pos htb] at h
    exact absurd h (by simp)
  · rw [if_neg htb] at h
    cases hti : clauseTitle block with
    | none =>
      rw [hti] at h
      exact absurd h (by simp)
    | some tt =>
      rw [hti] at h
      dsimp only at h
      by_cases hc : tt ≠ [] ∧ clauseText block ≠ []
      · rw [if_pos hc] at h
        cases h
        exact ⟨extractSeverity_mem _, extractCategory_mem _⟩
      · rw [if_neg hc] at h
        exact absurd h (by simp)

/-- C5 witness at a concrete block with explicit labels. -/
theorem clause_enums_valid_witness :
    parseClauseBlock "**T**\nbody\nSeverity: High\nCategory: Privacy".data =
      some ⟨"T".data, "body".data, "high".data, "privacy".data⟩ ∧
    ((⟨"T".data, "body".data, "high".data, "privacy".data⟩ : Clause).severity ∈
        validSeverities ∧
      (⟨"T".data, "body".data, "high".data, "privacy".data⟩ : Clause).category ∈
        validCategories) :=
  ⟨by decide,
   clause_enums_valid "**T**\nbody\nSeverity: High\nCategory: Privacy".data
     ⟨"T".data, "body".data, "high".data, "privacy".data⟩ (by decide)⟩

/-! ### The extractor: selector priority and the length invariant -/

theorem trySelectors_spec (d : Doc) :
    ∀ L t, trySelectors d L = some t →
      ∃ sel el, sel ∈ L ∧ d.query sel = some el ∧
        t = cleanText el.rawText ∧ 500 < t.length := by
  intro L
  induction L with
  | nil =>
    intro t h
    exact absurd h (by simp [trySelectors])
  | cons sel rest ih =>
    intro t h
    unfold trySelectors at h
    cases hq : d.query sel with
    | some el =>
      rw [hq] at h
      dsimp only at h
      by_cases hlen : 500 < (cleanText el.rawText).length
      · rw [if_pos hlen] at h
        cases h
        exact ⟨sel, el, by simp, hq, rfl, hlen⟩
      · rw [if_neg hlen] at h
        obtain ⟨sel2, el2, hmem, hq2, ht, hl⟩ := ih t h
        exact ⟨sel2, el2, by simp [hmem], hq2, ht, hl⟩
    | none =>
      rw [hq] at h
      obtain ⟨sel2, el2, hmem, hq2, ht, hl⟩ := ih t h
      exact ⟨sel2, el2, by simp [hmem], hq2, ht, hl⟩

theorem trySelectors_isSome (d : Doc) :
    ∀ L (sel : Str) (el : Element), sel ∈ L → d.query sel = some el →
      500 < (cleanText el.rawText).length →
      (trySelectors d L).isSome = true := by
  intro L
  induction L with
  | nil =>
    intro sel el hmem _ _
    exact absurd hmem (by simp)
  | cons s0 rest ih =>
    intro sel el hmem hq hlen
    unfold trySelectors
    cases hq0 : d.query s0 with
    | some el0 =>
      dsimp only
      by_cases hl0 : 500 < (cleanText el0.rawText).length
      · rw [if_pos hl0]
        rfl
      · rw [if_neg hl0]
        rcases List.mem_cons.mp hmem with rfl | htl
        · rw [hq0] at hq
          cases hq
          exact absurd hlen hl0
        · exact ih sel el htl hq hlen
    | none =>
      rcases List.mem_cons.mp hmem with rfl | htl
      · rw [hq0] at hq
        exact absurd hq (by simp)
      · exact ih sel el htl hq hlen

/-- C8.  When a known-selector element with cleaned text longer than
500 characters exists, the selector stage itself produces the result:
the extractor returns the cleaned text of a known-selector element (the
first sufficiently long one in priority order) and, the first stage
having succeeded, no lower-priority strategy (headings, iframes,
containers, body) influences the outcome. -/
theorem selector_stage_wins (d : Doc) (sel : Str) (el : Element)
    (hsel : sel ∈ possibleSelectors) (hq : d.query sel = some el)
    (hlen : 500 < (cleanText el.rawText).length) :
    ∃ t, trySelectors d possibleSelectors = some t ∧
      extractTermsAndConditions d = some t ∧
      ∃ sel2 el2, sel2 ∈ possibleSelectors ∧ d.query sel2 = some el2 ∧
        t = cleanText el2.rawText ∧ 500 < t.length := by
  have hsome := trySelectors_isSome d possibleSelectors sel el hsel hq hlen
  obtain ⟨t, ht⟩ := Option.isSome_iff_exists.mp hsome
  refine ⟨t, ht, ?_, ?_⟩
  · unfold extractTermsAndConditions
    rw [ht]
  · obtain ⟨sel2, el2, hmem, hq2, hteq, hl⟩ := trySelectors_spec d possibleSelectors t ht
    exact ⟨sel2, el2, hmem, hq2, hteq, hl⟩

/-- The concrete document of the C8 witness: one element of 600
cleaned characters behind the first known selector. -/
def selectorWitnessDoc : Doc :=
  { query := fun s => if s = "#terms".data then some ⟨List.replicate 600 'a'⟩ else none,
    headings := [], iframes := [], title := [], url := [], bodyRaw := [] }

/-- C8 witness: the hypotheses hold and the conclusion follows at the
concrete document. -/
theorem selector_stage_wins_witness :
    ("#terms".data ∈ possibleSelectors ∧
      selectorWitnessDoc.query "#terms".data = some ⟨List.replicate 600 'a'⟩ ∧
      500 < (cleanText (⟨List.replicate 600 'a'⟩ : Element).rawText).length) ∧
    ∃ t, trySelectors selectorWitnessDoc possibleSelectors = some t ∧
      extractTermsAndConditions selectorWitnessDoc = some t ∧
      ∃ sel2 el2, sel2 ∈ possibleSelectors ∧
        selectorWitnessDoc.query sel2 = some el2 ∧
        t = cleanText el2.rawText ∧ 500 < t.length :=
  ⟨⟨by decide, by decide, by decide⟩,
   selector_stage_wins selectorWitnessDoc "#terms".data ⟨List.replicate 600 'a'⟩
     (by decide) (by decide) (by decide)⟩

theorem tryHeading_len {h : Heading} {t : Str} (ht : tryHeading h = some t) :
    500 < t.length := by
  unfold tryHeading at ht
  by_cases hkw : kwMatchHeading h.text = true
  · rw [if_pos hkw] at ht
    dsimp only at ht
    cases hp : h.parentRaw with
    | some praw =>
      rw [hp] at ht
      dsimp only at ht
      by_cases hc : 1000 < (cleanText praw).length ∧ (cleanText praw).length < 100000 ∧
          containsSub (cleanText praw) h.text = true
      · rw [if_pos hc] at ht
        dsimp only at ht
        cases ht
        omega
      · rw [if_neg hc] at ht
        dsimp only at ht
        by_cases hs : 500 < (trimStr (collectSiblings h.siblings 0)).length
        · rw [if_pos hs] at ht
          cases ht
          exact hs
        · rw [if_neg hs] at ht
          exact absurd ht (by simp)
    | none =>
      rw [hp] at ht
      dsimp only at ht
      by_cases hs : 500 < (trimStr (collectSiblings h.siblings 0)).length
      · rw [if_pos hs] at ht
        cases ht
        exact hs
      · rw [if_neg hs] at ht
        exact absurd ht (by simp)
  · rw [if_neg hkw] at ht
    exact absurd ht (by simp)

theorem tryHeadings_len {t : Str} :
    ∀ {hs : List Heading}, tryHeadings hs = some t → 500 < t.length := by
  intro hs
  induction hs with
  | nil =>
    intro h
    exact absurd h (by simp [tryHeadings])
  | cons h0 rest ih =>
    intro h
    unfold tryHeadings at h
    cases hh : tryHeading h0 with
    | some t0 =>
      rw [hh] at h
      cases h
      exact tryHeading_len hh
    | none =>
      rw [hh] at h
      exact ih h

theorem tryIframes_len {likely : Bool} {t : Str} :
    ∀ {frames : List (Option Str)}, tryIframes likely frames = some t →
      500 < t.length := by
  intro frames
  induction frames with
  | nil =>
    intro h
    exact absurd h (by simp [tryIframes])
  | cons f rest ih =>
    intro h
    cases f with
    | none => exact ih h
    | some raw =>
      unfold tryIframes at h
      dsimp only at h
      by_cases hc : 1000 < (trimStr (collapseWsAux false raw)).length ∧ likely = true
      · rw [if_pos hc] at h
        cases h
        omega
      · rw [if_neg hc] at h
        exact ih h

theorem tryContainers_len (d : Doc) {t : Str} :
    ∀ {L : List Str}, tryContainers d L = some t → 500 < t.length := by
  intro L
  induction L with
  | nil =>
    intro h
    exact absurd h (by simp [tryContainers])
  | cons sel rest ih =>
    intro h
    unfold tryContainers at h
    cases hq : d.query sel with
    | some el =>
      rw [hq] at h
      dsimp only at h
      by_cases hlen : 1000 < (cleanText el.rawText).length
      · rw [if_pos hlen] at h
        cases h
        omega
      · rw [if_neg hlen] at h
        exact ih h
    | none =>
      rw [hq] at h
      exact ih h

/-- C10.  Whenever the extractor returns a non-null result, that result
is longer than 500 characters: every accepting path is guarded by a
threshold of at least 500 (500 for the selector and sibling-walk paths,
1000 for heading-parent, iframe and container paths, 1500 for the body
fallback). -/
theorem extract_result_long (d : Doc) (t : Str)
    (h : extractTermsAndConditions d = some t) : 500 < t.length := by
  unfold extractTermsAndConditions at h
  cases h1 : trySelectors d possibleSelectors with
  | some t0 =>
    rw [h1] at h
    dsimp only at h
    cases h
    obtain ⟨_, _, _, _, hteq, hl⟩ := trySelectors_spec d possibleSelectors _ h1
    exact hl
  | none =>
    rw [h1] at h
    dsimp only at h
    cases h2 : tryHeadings d.headings with
    | some t0 =>
      rw [h2] at h
      dsimp only at h
      cases h
      exact tryHeadings_len h2
    | none =>
      rw [h2] at h
      dsimp only at h
      cases h3 : tryIframes (isLikelyTCPage d) d.iframes with
      | some t0 =>
        rw [h3] at h
        dsimp only at h
        cases h
        exact tryIframes_len h3
      | none =>
        rw [h3] at h
        dsimp only at h
        by_cases hlik : isLikelyTCPage d = true
        · rw [if_pos hlik] at h
          cases h4 : tryContainers d commonContainers with
          | some t0 =>
            rw [h4] at h
            dsimp only at h
            cases h
            exact tryContainers_len d h4
          | none =>
            rw [h4] at h
            dsimp only at h
            by_cases hb : 1500 < (cleanText d.bodyRaw).length
            · rw [if_pos hb] at h
              cases h
              omega
            · rw [if_neg hb] at h
              exact absurd h (by simp)
        · rw [if_neg hlik] at h
          exact absurd h (by simp)

/-- The concrete document of the C10 witness. -/
def lengthWitnessDoc : Doc :=
  { query := fun s => if s = "#legal".data then some ⟨List.replicate 777 'b'⟩ else none,
    headings := [], iframes := [], title := [], url := [], bodyRaw := [] }

/-- C10 witness: a concrete document on which the extractor returns a
result, and the bound holds for it. -/
theorem extract_result_long_witness :
    extractTermsAndConditions lengthWitnessDoc = some (List.replicate 777 'b') ∧
    500 < (List.replicate 777 'b').length :=
  ⟨by decide,
   extract_result_long lengthWitnessDoc (List.replicate 777 'b') (by decide)⟩

/-! ### Plain-text behaviour of the markdown renderer -/

theorem mem_trimStr {c : Char} {s : Str} (h : c ∈ trimStr s) : c ∈ s := by
  unfold trimStr at h
  rw [List.mem_reverse] at h
  have h2 := (List.dropWhile_sublist (l := (s.dropWhile isWs).reverse)
    (p := isWs)).subset h
  rw [List.mem_reverse] at h2
  exact (List.dropWhile_sublist (l := s) (p := isWs)).subset h2

theorem splitLines_ne_nil (s : Str) : splitLines s ≠ [] := by
  cases s with
  | nil => simp [splitLines]
  | cons c rest =>
    unfold splitLines
    by_cases hc : c = '\n'
    · simp [hc]
    · rw [if_neg hc]
      cases h : splitLines rest <;> simp

theorem mem_of_mem_splitLines {s l : Str} (hl : l ∈ splitLines s) :
    ∀ c ∈ l, c ∈ s := by
  induction s generalizing l with
  | nil =>
    intro c hc
    simp [splitLines] at hl
    subst hl
    simp at hc
  | cons a rest ih =>
    intro c hc
    unfold splitLines at hl
    by_cases ha : a = '\n'
    · rw [if_pos ha] at hl
      rcases List.mem_cons.mp hl with rfl | hl'
      · simp at hc
      · exact List.mem_cons_of_mem _ (ih hl' c hc)
    · rw [if_neg ha] at hl
      cases hsp : splitLines rest with
      | nil => exact absurd hsp (splitLines_ne_nil rest)
      | cons l0 ls =>
        rw [hsp] at hl
        dsimp only at hl
        rcases List.mem_cons.mp hl with rfl | hl'
        · rcases List.mem_cons.mp hc with rfl | hc'
          · simp
          · have hm : l0 ∈ splitLines rest := by
              rw [hsp]
              simp
            exact List.mem_cons_of_mem _ (ih hm c hc')
        · have hm : l ∈ splitLines rest := by
            rw [hsp]
            simp [hl']
          exact List.mem_cons_of_mem _ (ih hm c hc)

theorem not_nl_of_mem_splitLines {s l : Str} (hl : l ∈ splitLines s) :
    '\n' ∉ l := by
  induction s generalizing l with
  | nil =>
    simp [splitLines] at hl
    subst hl
    simp
  | cons a rest ih =>
    unfold splitLines at hl
    by_cases ha : a = '\n'
    · rw [if_pos ha] at hl
      rcases List.mem_cons.mp hl with rfl | hl'
      · simp
      · exact ih hl'
    · rw [if_neg ha] at hl
      cases hsp : splitLines rest with
      | nil => exact absurd hsp (splitLines_ne_nil rest)
      | cons l0 ls =>
        rw [hsp] at hl
        dsimp only at hl
        rcases List.mem_cons.mp hl with rfl | hl'
        · intro hmem
          rcases List.mem_cons.mp hmem with h1 | h2
          · exact ha h1.symm
          · have hm : l0 ∈ splitLines rest := by
              rw [hsp]
              simp
            exact ih hm h2
        · have hm : l ∈ splitLines rest := by
            rw [hsp]
            simp [hl']
          exact ih hm

theorem replaceBoldStarF_id {s : Str} (h : '*' ∉ s) :
    ∀ f, replaceBoldStarF f s = s := by
  induction s with
  | nil =>
    intro f
    cases f <;> rfl
  | cons c rest ih =>
    intro f
    cases f with
    | zero => rfl
    | succ f' =>
      have hc : ¬c = '*' := fun hcc => h (by simp [hcc])
      have ih' := ih (fun hm => h (List.mem_cons_of_mem _ hm)) f'
      simp [replaceBoldStarF, hc, ih']

theorem replaceBoldUnderF_id {s : Str} (h : '_' ∉ s) :
    ∀ f, replaceBoldUnderF f s = s := by
  induction s with
  | nil =>
    intro f
    cases f <;> rfl
  | cons c rest ih =>
    intro f
    cases f with
    | zero => rfl
    | succ f' =>
      have hc : ¬c = '_' := fun hcc => h (by simp [hcc])
      have ih' := ih (fun hm => h (List.mem_cons_of_mem _ hm)) f'
      simp [replaceBoldUnderF, hc, ih']

theorem replaceItalF_id {trig : Char} {s : Str} (h : trig ∉ s) :
    ∀ f prev, replaceItalF trig f prev s = s := by
  induction s with
  | nil =>
    intro f prev
    cases f <;> rfl
  | cons c rest ih =>
    intro f prev
    cases f with
    | zero => rfl
    | succ f' =>
      have hc : ¬c = trig := fun hcc => h (by simp [hcc])
      have ih' := ih (fun hm => h (List.mem_cons_of_mem _ hm)) f' (some c)
      simp [replaceItalF, hc, ih']

theorem replaceCodeF_id {s : Str} (h : tick ∉ s) :
    ∀ f, replaceCodeF f s = s := by
  induction s with
  | nil =>
    intro f
    cases f <;> rfl
  | cons c rest ih =>
    intro f
    cases f with
    | zero => rfl
    | succ f' =>
      have hc : ¬c = tick := fun hcc => h (by simp [hcc])
      have ih' := ih (fun hm => h (List.mem_cons_of_mem _ hm)) f'
      simp [replaceCodeF, hc, ih']

theorem stripTagsF_id {s : Str} (h : '<' ∉ s) :
    ∀ f, stripTagsF f s = s := by
  induction s with
  | nil =>
    intro f
    cases f <;> rfl
  | cons c rest ih =>
    intro f
    cases f with
    | zero => rfl
    | succ f' =>
      have hc : ¬c = '<' := fun hcc => h (by simp [hcc])
      have ih' := ih (fun hm => h (List.mem_cons_of_mem _ hm)) f'
      simp [stripTagsF, hc, ih']

theorem matchesLit_cons_false {p c : Char} {ps rest : Str} (h : ¬p = c) :
    matchesLit (p :: ps) (c :: rest) = false := by
  simp [matchesLit, h]

theorem replaceBrF_id {s : Str} (h : '<' ∉ s) :
    ∀ f, replaceBrF f s = s := by
  induction s with
  | nil =>
    intro f
    cases f <;> rfl
  | cons c rest ih =>
    intro f
    cases f with
    | zero => rfl
    | succ f' =>
      have hc : ¬ '<' = c := fun hcc => h (by simp [hcc.symm])
      have hml : matchesLit brTag (c :: rest) = false := by
        have hdata : brTag = '<' :: "br>".data := rfl
        rw [hdata]
        exact matchesLit_cons_false hc
      have ih' := ih (fun hm => h (List.mem_cons_of_mem _ hm)) f'
      simp [replaceBrF, hml, ih']

/-- Two consecutive newlines nowhere in the string. -/
def noTwoNl : Str → Bool
  | [] => true
  | [_] => true
  | c :: d :: rest =>
    !(decide (c = '\n') && decide (d = '\n')) && noTwoNl (d :: rest)

theorem collapse3F_id {s : Str} (h : noTwoNl s = true) :
    ∀ f, collapse3F f s = s := by
  induction s with
  | nil =>
    intro f
    cases f <;> rfl
  | cons c rest ih =>
    intro f
    cases f with
    | zero => rfl
    | succ f' =>
      have hrest : noTwoNl rest = true := by
        cases rest with
        | nil => rfl
        | cons d r =>
          have := h
          simp only [noTwoNl, Bool.and_eq_true] at this
          exact this.2
      have hcond : ¬(c = '\n' ∧ matchesLit "\n\n".data rest = true) := by
        rintro ⟨rfl, hm⟩
        cases rest with
        | nil =>
          have hdata : "\n\n".data = '\n' :: '\n' :: [] := rfl
          rw [hdata] at hm
          simp [matchesLit] at hm
        | cons d r =>
          have hdata : "\n\n".data = '\n' :: '\n' :: [] := rfl
          rw [hdata] at hm
          simp only [matchesLit, Bool.and_eq_true, decide_eq_true_eq] at hm
          have hd : d = '\n' := hm.1.symm
          subst hd
          simp [noTwoNl] at h
      have ih' := ih hrest f'
      simp [collapse3F, hcond, ih']

theorem matchesLit_append_self (p t : Str) : matchesLit p (p ++ t) = true := by
  induction p with
  | nil => rfl
  | cons c ps ih => simp [matchesLit, ih]

theorem replaceBrF_append {x : Str} (t : Str) (hx : '<' ∉ x) :
    ∀ f, x.length + t.length ≤ f →
      replaceBrF f (x ++ t) = x ++ replaceBrF (f - x.length) t := by
  induction x with
  | nil =>
    intro f _
    simp
  | cons c x' ih =>
    intro f hf
    have hc : ¬ '<' = c := fun hcc => hx (by simp [hcc.symm])
    cases f with
    | zero => simp at hf
    | succ f' =>
      have hml : matchesLit brTag (c :: (x' ++ t)) = false := by
        have hdata : brTag = '<' :: "br>".data := rfl
        rw [hdata]
        exact matchesLit_cons_false hc
      have hx' : '<' ∉ x' := fun hm => hx (List.mem_cons_of_mem _ hm)
      have hbound : x'.length + t.length ≤ f' := by
        simp only [List.length_cons] at hf
        omega
      have harith : f' + 1 - (c :: x').length = f' - x'.length := by
        simp [List.length_cons]
      rw [harith]
      simp only [List.cons_append, replaceBrF, List.append_eq, hml, Bool.false_eq_true,
        if_false, ite_false]
      rw [ih hx' f' hbound]

theorem mem_joinSep {sep : Str} {c : Char} :
    ∀ {ls : List Str}, c ∈ joinSep sep ls → c ∈ sep ∨ ∃ l ∈ ls, c ∈ l := by
  intro ls
  induction ls with
  | nil =>
    intro h
    simp [joinSep] at h
  | cons x ls' ih =>
    cases ls' with
    | nil =>
      intro h
      exact Or.inr ⟨x, by simp, h⟩
    | cons y rest =>
      intro h
      have hj : joinSep sep (x :: y :: rest) = x ++ (sep ++ joinSep sep (y :: rest)) := by
        simp [joinSep]
      rw [hj] at h
      rcases List.mem_append.mp h with h1 | h2
      · exact Or.inr ⟨x, by simp, h1⟩
      · rcases List.mem_append.mp h2 with hs | h3
        · exact Or.inl hs
        · rcases ih h3 with hs | ⟨l, hl, hc⟩
          · exact Or.inl hs
          · exact Or.inr ⟨l, by simp [hl], hc⟩

theorem replaceBrF_joinBr {ls : List Str} (h : ∀ l ∈ ls, '<' ∉ l) :
    ∀ f, (joinSep brTag ls).length ≤ f →
      replaceBrF f (joinSep brTag ls) = joinSep ['\n'] ls := by
  induction ls with
  | nil =>
    intro f _
    cases f <;> rfl
  | cons x ls' ih =>
    cases ls' with
    | nil =>
      intro f _
      exact replaceBrF_id (h x (by simp)) f
    | cons y rest =>
      intro f hf
      have hx : '<' ∉ x := h x (by simp)
      have hjoin : joinSep brTag (x :: y :: rest) =
          x ++ (brTag ++ joinSep brTag (y :: rest)) := by
        simp [joinSep]
      rw [hjoin]
      rw [hjoin] at hf
      simp only [List.length_append] at hf
      rw [replaceBrF_append _ hx f (by simp only [List.length_append]; omega)]
      have hlen4 : (brTag : Str).length = 4 := rfl
      have hge : 4 + (joinSep brTag (y :: rest)).length ≤ f - x.length := by
        rw [hlen4] at hf
        omega
      obtain ⟨g', hg'⟩ : ∃ g', f - x.length = g' + 1 := by
        refine ⟨f - x.length - 1, ?_⟩
        omega
      rw [hg']
      have hdata : (brTag : Str) ++ joinSep brTag (y :: rest) =
          '<' :: ("br>".data ++ joinSep brTag (y :: rest)) := rfl
      have hmatch : matchesLit brTag
          (brTag ++ joinSep brTag (y :: rest)) = true :=
        matchesLit_append_self _ _
      rw [hdata] at hmatch ⊢
      simp only [replaceBrF, hmatch, if_true, ite_true]
      have hdrop : (('<' :: ("br>".data ++ joinSep brTag (y :: rest))).drop 4) =
          joinSep brTag (y :: rest) := rfl
      rw [hdrop]
      rw [ih (fun l hl => h l (by simp [hl])) g' (by omega)]
      simp [joinSep]

theorem joinSep_cons_head {sep y : Str} {rest : List Str} (hy : y ≠ []) :
    (joinSep sep (y :: rest)).head? = y.head? := by
  cases rest with
  | nil => rfl
  | cons z r =>
    cases y with
    | nil => exact absurd rfl hy
    | cons cy ys => simp [joinSep]

theorem noTwoNl_tail {c : Char} {rest : Str} (h : noTwoNl (c :: rest) = true) :
    noTwoNl rest = true := by
  cases rest with
  | nil => rfl
  | cons d r =>
    simp only [noTwoNl, Bool.and_eq_true] at h
    exact h.2

theorem noTwoNl_append {x t : Str} (hx : '\n' ∉ x) (ht : noTwoNl t = true) :
    noTwoNl (x ++ t) = true := by
  induction x with
  | nil => simpa
  | cons c x' ih =>
    have hc : ¬c = '\n' := fun hcc => hx (by simp [hcc])
    have hx' : '\n' ∉ x' := fun hm => hx (List.mem_cons_of_mem _ hm)
    have hxt := ih hx'
    rw [List.cons_append]
    cases hr : x' ++ t with
    | nil => rfl
    | cons d r =>
      rw [hr] at hxt
      simp [noTwoNl, hc, hxt]

theorem noTwoNl_joinNl {ls : List Str}
    (h : ∀ l ∈ ls, l ≠ [] ∧ '\n' ∉ l) :
    noTwoNl (joinSep ['\n'] ls) = true := by
  induction ls with
  | nil => rfl
  | cons x ls' ih =>
    cases ls' with
    | nil =>
      have hx := h x (by simp)
      have := noTwoNl_append (x := x) (t := []) hx.2 rfl
      simpa using this
    | cons y rest =>
      have hx := h x (by simp)
      have hy := h y (by simp)
      have hrec := ih (fun l hl => h l (by simp [hl]))
      have hhead : noTwoNl ('\n' :: joinSep ['\n'] (y :: rest)) = true := by
        cases hj : joinSep ['\n'] (y :: rest) with
        | nil => rfl
        | cons d r =>
          have hd0 : (joinSep ['\n'] (y :: rest)).head? = y.head? :=
            joinSep_cons_head hy.1
          rw [hj] at hd0
          have hdne : ¬ '\n' = d := by
            intro hdd
            cases y with
            | nil => exact hy.1 rfl
            | cons cy ys =>
              simp at hd0
              subst hd0
              exact hy.2 (by simp [hdd.symm])
          have hrest : noTwoNl (d :: r) = true := by
            rw [← hj]
            exact hrec
          simp [noTwoNl, hrest]
          intro hcon
          exact absurd hcon.symm hdne
      have hjoin : joinSep ['\n'] (x :: y :: rest) =
          x ++ ('\n' :: joinSep ['\n'] (y :: rest)) := by
        simp [joinSep]
      rw [hjoin]
      exact noTwoNl_append hx.2 hhead

theorem stripListMarker_id {l : Str} (h1 : '*' ∉ l)
    (hd : matchesLit "- ".data l = false) : stripListMarker l = l := by
  have hstar : matchesLit "* ".data l = false := by
    cases l with
    | nil => rfl
    | cons c r =>
      have hc : ¬ '*' = c := by
        intro he
        exact h1 (by simp [he.symm])
      have hdata : "* ".data = '*' :: " ".data := rfl
      rw [hdata]
      exact matchesLit_cons_false hc
  unfold stripListMarker
  rw [if_neg]
  simp [hstar, hd]

theorem convertLine_plain {line : Str} (h1 : '*' ∉ line) (h2 : '_' ∉ line)
    (h3 : tick ∉ line) (hd : matchesLit "- ".data (trimStr line) = false) :
    convertLine line = trimStr line := by
  have t1 : '*' ∉ trimStr line := fun hm => h1 (mem_trimStr hm)
  have t2 : '_' ∉ trimStr line := fun hm => h2 (mem_trimStr hm)
  have t3 : tick ∉ trimStr line := fun hm => h3 (mem_trimStr hm)
  have hstrip : stripListMarker (trimStr line) = trimStr line :=
    stripListMarker_id t1 hd
  simp only [convertLine, hstrip, replaceBoldStarF_id t1, replaceBoldUnderF_id t2,
    replaceItalF_id t1, replaceItalF_id t2, replaceCodeF_id t3]

theorem convertMarkdownToHtml_plain {s : Str}
    (h1 : '*' ∉ s) (h2 : '_' ∉ s) (h3 : tick ∉ s)
    (hd : ∀ l ∈ splitLines s, matchesLit "- ".data (trimStr l) = false) :
    convertMarkdownToHtml s =
      joinSep brTag (((splitLines s).map trimStr).filter (· ≠ [])) := by
  unfold convertMarkdownToHtml
  by_cases hs : s = []
  · rw [if_pos hs]
    subst hs
    rfl
  · rw [if_neg hs]
    have hmap : (splitLines s).map convertLine = (splitLines s).map trimStr := by
      apply List.map_congr_left
      intro l hl
      exact convertLine_plain
        (fun hm => h1 (mem_of_mem_splitLines hl _ hm))
        (fun hm => h2 (mem_of_mem_splitLines hl _ hm))
        (fun hm => h3 (mem_of_mem_splitLines hl _ hm))
        (hd l hl)
    rw [hmap]

/-! ### The claims about plain-text inputs -/

/-- The output shape asserted by the passthrough claim: the input with
each newline replaced by the line-break tag and nothing else changed
(this definition follows the words of the claim, for comparison with
the behaviour of the source). -/
def specLineBreakSubst : Str → Str
  | [] => []
  | c :: rest =>
    if c = '\n' then brTag ++ specLineBreakSubst rest
    else c :: specLineBreakSubst rest

/-- Absence of markdown syntax, the domain of the passthrough claim: no
bold, italic or code delimiter characters and no line carrying a
dash list marker after trimming. -/
def markdownFreeInput (s : Str) : Bool :=
  s.all (fun c => !(decide (c = '*') || decide (c = '_') || decide (c = tick))) &&
  (splitLines s).all (fun l => !matchesLit "- ".data (trimStr l))

theorem markdownFreeInput_elim {s : Str} (h : markdownFreeInput s = true) :
    '*' ∉ s ∧ '_' ∉ s ∧ tick ∉ s ∧
      ∀ l ∈ splitLines s, matchesLit "- ".data (trimStr l) = false := by
  unfold markdownFreeInput at h
  rw [Bool.and_eq_true] at h
  obtain ⟨hc, hl⟩ := h
  rw [List.all_eq_true] at hc hl
  refine ⟨?_, ?_, ?_, ?_⟩
  · intro hm
    have := hc _ hm
    simp at this
  · intro hm
    have := hc _ hm
    simp at this
  · intro hm
    have := hc _ hm
    simp at this
  · intro l hml
    have := hl _ hml
    simpa using this

/-- C7 counterexample.  A markdown-free input containing a blank line:
the converter drops the empty line, so the output differs from pure
line-break substitution, refuting the claim as stated. -/
theorem passthrough_counterexample :
    markdownFreeInput "a\n\nb".data = true ∧
    convertMarkdownToHtml "a\n\nb".data ≠ specLineBreakSubst "a\n\nb".data := by
  decide

/-- C7 amended.  For every markdown-free input the converter returns
the lines of the input, each trimmed, with empty lines dropped, joined
by the line-break tag — that is, line-break substitution combined with
per-line trimming and blank-line removal, and no other change. -/
theorem markdown_free_passthrough (s : Str) (h : markdownFreeInput s = true) :
    convertMarkdownToHtml s =
      joinSep brTag (((splitLines s).map trimStr).filter (· ≠ [])) := by
  obtain ⟨h1, h2, h3, hd⟩ := markdownFreeInput_elim h
  exact convertMarkdownToHtml_plain h1 h2 h3 hd

/-- C7 amended, witness at a concrete markdown-free input. -/
theorem markdown_free_passthrough_witness :
    markdownFreeInput "Hello\nworld".data = true ∧
    convertMarkdownToHtml "Hello\nworld".data =
      joinSep brTag
        (((splitLines "Hello\nworld".data).map trimStr).filter (· ≠ [])) :=
  ⟨by decide, markdown_free_passthrough "Hello\nworld".data (by decide)⟩

/-- Plain text for the round-trip claim: markdown-free and free of the
markup-significant characters (angle brackets, ampersand), so that the
text survives the markup embedding unchanged. -/
def plainTextInput (s : Str) : Bool :=
  markdownFreeInput s &&
  s.all (fun c => !(decide (c = '<') || decide (c = '>') || decide (c = '&')))

/-- The normalization asserted by the round-trip claim, in the words of
the spec contract for the inverse: collapse three or more consecutive
newlines to exactly two, and trim (this definition follows the claim,
for comparison with the behaviour of the source). -/
def specBlankLineNormalize (s : Str) : Str :=
  trimStr (collapse3F (s.length + 1) s)

/-- C6 counterexample.  A plain-text input with one blank line: its
claimed normalization keeps the blank line (two newlines are within the
allowance), but the round trip through the converter and the inverse
collapses the blank line entirely, refuting the claim as stated. -/
theorem roundtrip_counterexample :
    plainTextInput "x\n\ny".data = true ∧
    getPlainText (convertMarkdownToHtml "x\n\ny".data) ≠
      specBlankLineNormalize "x\n\ny".data := by
  decide

/-- C6 amended.  For every plain-text input the round trip through the
converter and the inverse yields the input with each line trimmed,
empty lines removed, and the remaining lines joined by single newlines
(then trimmed): blank lines collapse entirely, not merely to at most
two newlines. -/
theorem roundtrip_plain (s : Str) (h : plainTextInput s = true) :
    getPlainText (convertMarkdownToHtml s) =
      trimStr (joinSep ['\n'] (((splitLines s).map trimStr).filter (· ≠ []))) := by
  unfold plainTextInput at h
  rw [Bool.and_eq_true] at h
  obtain ⟨hmd, hlt⟩ := h
  rw [List.all_eq_true] at hlt
  have hltc : '<' ∉ s := by
    intro hm
    have := hlt _ hm
    simp at this
  obtain ⟨h1, h2, h3, hd⟩ := markdownFreeInput_elim hmd
  have hconv := convertMarkdownToHtml_plain h1 h2 h3 hd
  rw [hconv]
  have hlschars : ∀ l ∈ ((splitLines s).map trimStr).filter (· ≠ []),
      l ≠ [] ∧ '\n' ∉ l ∧ '<' ∉ l := by
    intro l hl
    obtain ⟨hmem, hne⟩ := List.mem_filter.mp hl
    obtain ⟨l0, hl0, rfl⟩ := List.mem_map.mp hmem
    refine ⟨by simpa using hne, ?_, ?_⟩
    · intro hm
      exact not_nl_of_mem_splitLines hl0 (mem_trimStr hm)
    · intro hm
      exact hltc (mem_of_mem_splitLines hl0 _ (mem_trimStr hm))
  set ls := ((splitLines s).map trimStr).filter (· ≠ []) with hls
  simp only [getPlainText]
  by_cases hj : joinSep brTag ls = []
  · rw [if_pos hj]
    have hls0 : ls = [] := by
      cases hcase : ls with
      | nil => rfl
      | cons x ls' =>
        exfalso
        have hx := (hlschars x (by rw [hcase]; simp)).1
        cases ls' with
        | nil =>
          rw [hcase] at hj
          exact hx hj
        | cons y r =>
          rw [hcase] at hj
          have : joinSep brTag (x :: y :: r) =
              x ++ (brTag ++ joinSep brTag (y :: r)) := by
            simp [joinSep]
          rw [this] at hj
          rcases List.append_eq_nil.mp hj with ⟨-, h4⟩
          rcases List.append_eq_nil.mp h4 with ⟨h5, -⟩
          exact absurd h5 (by decide)
    rw [hls0]
    rfl
  · rw [if_neg hj]
    have hbr : replaceBrF ((joinSep brTag ls).length + 1)
        (joinSep brTag ls) = joinSep ['\n'] ls :=
      replaceBrF_joinBr (fun l hl => (hlschars l hl).2.2) _ (by omega)
    rw [hbr]
    have hnl : '<' ∉ joinSep ['\n'] ls := by
      intro hm
      rcases mem_joinSep hm with hsep | ⟨l, hl, hc⟩
      · simp at hsep
      · exact (hlschars l hl).2.2 hc
    rw [stripTagsF_id hnl]
    have hnn : noTwoNl (joinSep ['\n'] ls) = true :=
      noTwoNl_joinNl (fun l hl => ⟨(hlschars l hl).1, (hlschars l hl).2.1⟩)
    rw [collapse3F_id hnn]

/-- C6 amended, witness at a concrete plain-text input. -/
theorem roundtrip_plain_witness :
    plainTextInput "Legal\nterms".data = true ∧
    getPlainText (convertMarkdownToHtml "Legal\nterms".data) =
      trimStr (joinSep ['\n']
        (((splitLines "Legal\nterms".data).map trimStr).filter (· ≠ []))) :=
  ⟨by decide, roundtrip_plain "Legal\nterms".data (by decide)⟩

end LegalEyes
